import Mathlib

/-! # dkron dashboard: execution grouping, status classification, bounding, truncation

A shallow embedding of `dkron/dashboard.go`.

* Go slices are Lean lists; a slice expression that would be out of range is `none`.
* `map[int64][]*Execution` is an association list whose keys are kept distinct by
  `mapSet`; reading a missing key gives Go's zero value, the nil slice `[]`.
* `int64` group ids are `Int`: the handler never does arithmetic on them, it only
  compares them, so no wrap-around can occur.
* The order in which `range` enumerates the keys of a Go map is unspecified; the
  handler takes that enumeration as a parameter `enum`.
* A Go `string` is its byte sequence, a list of naturals below 256.
-/

namespace Dkron

/-! ## Data model -/

/-- Modelled from the spec: the `Execution` type is declared outside `dashboard.go`.
The spec (section 3) gives it the owning job name, the `Group` batching id, the
success flag and an output; `dashboard.go` itself reads `Group` and `Success`. -/
structure Execution where
  JobName : String
  Group : Int
  Success : Bool
  Output : List Nat
deriving DecidableEq, Repr

/-- Modelled from the spec: the `Job` type is declared outside `dashboard.go`;
the classifier reads only `job.Name`. -/
structure Job where
  Name : String
deriving DecidableEq, Repr

/-- The Go type `map[int64][]*Execution`, as an association list. -/
abbrev GroupMap := List (Int × List Execution)

/-- Keys of the map, in storage order. -/
def mapKeys (m : GroupMap) : List Int := m.map Prod.fst

/-- The Go read `groups[k]`: the stored slice, or the nil slice when `k` is absent. -/
def mapGet : GroupMap → Int → List Execution
  | [], _ => []
  | (k', v) :: rest, k => if k' = k then v else mapGet rest k

/-- The Go write `groups[k] = v`: overwrite the entry of `k`, or add one. -/
def mapSet : GroupMap → Int → List Execution → GroupMap
  | [], k, v => [(k, v)]
  | (k', v') :: rest, k, v => if k' = k then (k', v) :: rest else (k', v') :: mapSet rest k v

/-- One iteration of the grouping loop (dashboard.go line 146):
`groups[exec.Group] = append(groups[exec.Group], exec)`. -/
def groupStep (groups : GroupMap) (exec : Execution) : GroupMap :=
  mapSet groups exec.Group (mapGet groups exec.Group ++ [exec])

/-- The grouping loop (dashboard.go lines 144-147), started from `make(map...)`. -/
def groupLoop (execs : List Execution) : GroupMap :=
  execs.foldl groupStep []

/-! ## Ordering of the group ids -/

/-- The method `int64arr.Less`, on the two values compared. -/
def int64Less (x y : Int) : Bool := decide (x < y)

/-- Insertion of `x` into an ascending list: `x` is placed in front of the first
element it is `Less` than, which is where a swap-based insertion comes to rest. -/
def sortInsert (x : Int) : List Int → List Int
  | [] => [x]
  | y :: ys => if int64Less x y then x :: y :: ys else y :: sortInsert x ys

/-- The call `sort.Sort(byGroup)` over `int64arr`. The library routine is outside
the repository; it is embedded as an insertion sort driven by `Less`, which is
what the library runs on short inputs. -/
def sortInt64 (a : List Int) : List Int :=
  a.foldl (fun acc x => sortInsert x acc) []

/-- The loop of dashboard.go lines 150-153 followed by `sort.Sort`:
every key of the map is appended in the enumeration order `enum`, then sorted. -/
def byGroupOf (enum : List Int → List Int) (groups : GroupMap) : List Int :=
  sortInt64 ((enum (mapKeys groups)).foldl (fun acc key => acc ++ [key]) [])

/-- An enumeration order of map keys: each key is visited once. -/
def IsEnumeration (enum : List Int → List Int) : Prop :=
  ∀ ks : List Int, (enum ks).Perm ks

/-! ## Status classifier -/

/-- The counting loop of `executionStatus` (dashboard.go lines 95-103),
returning `(success, failed)`. The counters are Go `int`s bounded by the
slice length, so they cannot overflow. -/
def countLoop (execs : List Execution) : Nat × Nat :=
  execs.foldl
    (fun (c : Nat × Nat) ex => if ex.Success then (c.1 + 1, c.2) else (c.1, c.2 + 1))
    (0, 0)

/-- The decision chain of `executionStatus` (dashboard.go lines 105-113). -/
def statusLabel (success failed : Nat) : String :=
  if failed = 0 then "success"
  else if failed > 0 ∧ success = 0 then "danger"
  else if failed > 0 ∧ success > 0 then "warning"
  else ""

/-- The classifier on the slice it received from the store. -/
def executionStatusOf (execs : List Execution) : String :=
  statusLabel (countLoop execs).1 (countLoop execs).2

/-- The template function `executionStatus` (dashboard.go lines 93-114).
`GetLastExecutionGroup` is the store call; it returns the slice together with an
error value that the code discards. -/
def executionStatus (GetLastExecutionGroup : String → List Execution × Option String)
    (job : Job) : String :=
  executionStatusOf (GetLastExecutionGroup job.Name).1

/-! ## Display bounder -/

/-- The Go slice expression `xs[lo:]`; out of range is a run-time panic. -/
def sliceFrom {α : Type} (xs : List α) (lo : Int) : Option (List α) :=
  if 0 ≤ lo ∧ lo ≤ (xs.length : Int) then some (xs.drop lo.toNat) else none

/-- The Go slice expression `xs[:hi]`; out of range is a run-time panic. -/
def sliceTo {α : Type} (xs : List α) (hi : Int) : Option (List α) :=
  if 0 ≤ hi ∧ hi ≤ (xs.length : Int) then some (xs.take hi.toNat) else none

/-- The bounding step (dashboard.go lines 173-175). -/
def boundExecs (execs : List Execution) : Option (List Execution) :=
  if execs.length > 100 then sliceFrom execs ((execs.length : Int) - 100) else some execs

/-! ## Text truncator -/

/-- Length announced by the first byte of a UTF-8 sequence (0 when the byte cannot
start one), as in the decoder behind Go's `range` over a string. -/
def seqLen (b0 : Nat) : Nat :=
  if b0 < 0x80 then 1
  else if 0xC2 ≤ b0 ∧ b0 ≤ 0xDF then 2
  else if 0xE0 ≤ b0 ∧ b0 ≤ 0xEF then 3
  else if 0xF0 ≤ b0 ∧ b0 ≤ 0xF4 then 4
  else 0

/-- Lowest second byte accepted after the first byte `b0`. -/
def acceptLo (b0 : Nat) : Nat :=
  if b0 = 0xE0 then 0xA0 else if b0 = 0xF0 then 0x90 else 0x80

/-- Highest second byte accepted after the first byte `b0`. -/
def acceptHi (b0 : Nat) : Nat :=
  if b0 = 0xED then 0x9F else if b0 = 0xF4 then 0x8F else 0xBF

/-- Whether `b` is a continuation byte `10xxxxxx`. -/
def isCont (b : Nat) : Bool := decide (0x80 ≤ b ∧ b ≤ 0xBF)

/-- Number of bytes that one iteration of `for index, _ := range s` consumes when
the remaining bytes are `bs`: the length of the well-formed UTF-8 sequence at the
front, and 1 for a byte that does not start one (Go then yields U+FFFD and
advances a single byte). -/
def runeWidth : List Nat → Nat
  | [] => 0
  | b0 :: rest =>
    match seqLen b0, rest with
    | 2, b1 :: _ =>
      if acceptLo b0 ≤ b1 ∧ b1 ≤ acceptHi b0 then 2 else 1
    | 3, b1 :: b2 :: _ =>
      if acceptLo b0 ≤ b1 ∧ b1 ≤ acceptHi b0 ∧ isCont b2 then 3 else 1
    | 4, b1 :: b2 :: b3 :: _ =>
      if acceptLo b0 ≤ b1 ∧ b1 ≤ acceptHi b0 ∧ isCont b2 ∧ isCont b3 then 4 else 1
    | _, _ => 1

/-- The loop of `truncate` (dashboard.go lines 162-169). `index` is the byte
offset of the current rune and `numRunes` the counter before its increment;
`fuel` bounds the number of iterations and `none` is a failed run (slice out of
range, or fuel exhausted). -/
def truncateLoop (s : List Nat) : Nat → Nat → Nat → Option (List Nat)
  | 0, _, _ => none
  | fuel + 1, index, numRunes =>
    if index < s.length then
      if numRunes + 1 > 25 then sliceTo s (index : Int)
      else truncateLoop s fuel (index + runeWidth (s.drop index)) (numRunes + 1)
    else some s

/-- The template function `truncate` (dashboard.go lines 161-170). Every
iteration advances by at least one byte, so `len(s) + 1` iterations are enough. -/
def truncate (s : List Nat) : Option (List Nat) :=
  truncateLoop s (s.length + 1) 0 0

/-- UTF-8 encoding of one code point. -/
def encodeRune (c : Nat) : List Nat :=
  if c < 0x80 then [c]
  else if c < 0x800 then [0xC0 + c / 64, 0x80 + c % 64]
  else if c < 0x10000 then [0xE0 + c / 4096, 0x80 + c / 64 % 64, 0x80 + c % 64]
  else [0xF0 + c / 262144, 0x80 + c / 4096 % 64, 0x80 + c / 64 % 64, 0x80 + c % 64]

/-- UTF-8 encoding of a sequence of characters (Unicode scalar values): the
valid UTF-8 strings are exactly the values of this function. -/
def utf8Encode (cs : List Char) : List Nat :=
  cs.flatMap (fun c => encodeRune c.toNat)

/-- Valid UTF-8: the byte sequence encodes some sequence of characters. -/
def ValidUTF8 (s : List Nat) : Prop := ∃ cs : List Char, s = utf8Encode cs

/-! ## The execution-list view -/

/-- The view data of `dashboardExecutionsHandler` (dashboard.go lines 177-187)
that depends on the executions; `Common` is assembled separately by
`newCommonDashboardData`. -/
structure ExecutionsData where
  Groups : GroupMap
  JobName : String
  ByGroup : List Int
deriving DecidableEq, Repr

/-- The data flow of `dashboardExecutionsHandler` (dashboard.go lines 143-187).
`GetExecutions` is the store call, whose error value the code discards, and
`enum` is the order in which `range groups` visits the keys. The bounding step
rebinds the local `execs` after `groups` and `byGroup` have been built;
`none` is a run-time panic. -/
def dashboardExecutionsHandler (GetExecutions : String → List Execution × Option String)
    (enum : List Int → List Int) (job : String) : Option ExecutionsData :=
  let execs := (GetExecutions job).1
  let groups := groupLoop execs
  let byGroup := byGroupOf enum groups
  match boundExecs execs with
  | none => none
  | some _ => some { Groups := groups, JobName := job, ByGroup := byGroup }

/-- Number of iterations of a `range` loop over the string `s`, counted from the
byte offset `index` with `count` iterations already made: the number of
characters Go sees in `s` (an ill-formed byte counts as one). -/
def runeCountLoop (s : List Nat) : Nat → Nat → Nat → Nat
  | 0, _, count => count
  | fuel + 1, index, count =>
    if index < s.length then
      runeCountLoop s fuel (index + runeWidth (s.drop index)) (count + 1)
    else count

/-- Number of characters of the string `s`, as `range` enumerates them. -/
def runeCount (s : List Nat) : Nat := runeCountLoop s (s.length + 1) 0 0

/-! ## View metadata -/

/-- The constant `dashboardPathPrefix` (dashboard.go line 16). -/
def dashboardPathPrefix : String := "dashboard"

/-- The constant `apiPathPrefix` (dashboard.go line 17). -/
def apiPathPrefix : String := "v1"

/-- The struct `commonDashboardData` (dashboard.go lines 26-34). -/
structure commonDashboardData where
  Version : String
  LeaderName : String
  MemberName : String
  Backend : String
  Path : String
  APIPath : String
  Keyspace : String
deriving DecidableEq, Repr

/-- Modelled from the spec: the cluster member type is declared outside
`dashboard.go`, which reads only its `Name`. -/
structure Member where
  Name : String
deriving DecidableEq, Repr

/-- Modelled from the spec: the agent configuration is declared outside
`dashboard.go`; these are the fields the file reads. -/
structure Config where
  NodeName : String
  Backend : String
  Keyspace : String
  UIDir : String
deriving DecidableEq, Repr

/-- Modelled from the spec: `AgentCommand` is declared outside `dashboard.go`.
It carries the version string and the configuration; `leader` is the cluster
member currently known as leader, if any. -/
structure AgentCommand where
  Version : String
  config : Config
  leader : Option Member
deriving DecidableEq, Repr

/-- Modelled from the spec: the method `leaderMember` is defined outside
`dashboard.go`. The spec (section 6) gives the lookup as
`currentLeader() -> (Member, ok)`, a member value with a flag, and (section 4.5)
leaves the leader name empty when no leader is known: the lookup then returns
the zero member together with an error. -/
def leaderMember (a : AgentCommand) : Member × Option String :=
  match a.leader with
  | some m => (m, none)
  | none => (⟨""⟩, some "leader not found")

/-- The function `newCommonDashboardData` (dashboard.go lines 36-47); the error
of the leader lookup is discarded and `fmt.Sprintf("%s%s", x, y)` is the
concatenation of `x` and `y`. -/
def newCommonDashboardData (a : AgentCommand) (nodeName path : String) : commonDashboardData :=
  let l := (leaderMember a).1
  { Version := a.Version
    LeaderName := l.Name
    MemberName := nodeName
    Backend := a.config.Backend
    Path := path ++ dashboardPathPrefix
    APIPath := path ++ apiPathPrefix
    Keyspace := a.config.Keyspace }

/-- The view data of `dashboardIndexHandler` (dashboard.go lines 76-80). -/
structure IndexData where
  Common : commonDashboardData
deriving DecidableEq, Repr

/-- The view data of `dashboardJobsHandler` (dashboard.go lines 124-130). -/
structure JobsData where
  Common : commonDashboardData
  Jobs : List Job
deriving DecidableEq, Repr

/-- The data assembled by `dashboardIndexHandler` (dashboard.go lines 76-80). -/
def dashboardIndexHandler (a : AgentCommand) : IndexData :=
  { Common := newCommonDashboardData a a.config.NodeName "" }

/-- The data assembled by `dashboardJobsHandler` (dashboard.go lines 90, 124-130);
`GetJobs` is the result of the store call, whose error value the code discards. -/
def dashboardJobsHandler (a : AgentCommand) (GetJobs : List Job × Option String) : JobsData :=
  { Common := newCommonDashboardData a a.config.NodeName "../"
    Jobs := GetJobs.1 }

/-- The `Common` field of the view data of `dashboardExecutionsHandler`
(dashboard.go line 183). -/
def dashboardExecutionsCommon (a : AgentCommand) : commonDashboardData :=
  newCommonDashboardData a a.config.NodeName "../../../"

/-- Sum of a measure `f` over the stored slices. -/
def mapSum (f : List Execution → Nat) (m : GroupMap) : Nat := (m.map (fun kv => f kv.2)).sum

/-- Total number of execution records held by a map. -/
def totalRecords (m : GroupMap) : Nat := mapSum List.length m

/-! ## Example inputs -/

/-- A history of 101 executions: one failed run in group 1, then 100 runs in group 2. -/
def longExecs : List Execution :=
  ⟨"job", 1, false, []⟩ :: List.replicate 100 ⟨"job", 2, true, []⟩

/-- A store that returns `longExecs` for every job. -/
def longStore : String → List Execution × Option String := fun _ => (longExecs, none)

/-- A store that knows no execution of any job and reports an error. -/
def emptyStore : String → List Execution × Option String := fun _ => ([], some "not found")

/-- A store that returns the "backup" executions of group 7 for every job. -/
def mixedStore : String → List Execution × Option String :=
  fun _ => ([⟨"backup", 7, true, [1]⟩, ⟨"backup", 7, false, [2]⟩], none)

/-- An agent of a cluster whose leader is the node "node2". -/
def ledAgent : AgentCommand :=
  { Version := "0.9.4"
    config := { NodeName := "node1", Backend := "etcd", Keyspace := "dkron", UIDir := "." }
    leader := some ⟨"node2"⟩ }

/-- The same agent at a moment when no leader is known. -/
def leaderlessAgent : AgentCommand :=
  { Version := "0.9.4"
    config := { NodeName := "node1", Backend := "etcd", Keyspace := "dkron", UIDir := "." }
    leader := none }

/-- Another history with the groups 7 and 8, in a different arrival order. -/
def shuffledExecs : List Execution :=
  [⟨"backup", 7, false, []⟩, ⟨"backup", 8, false, []⟩, ⟨"backup", 8, true, []⟩,
   ⟨"backup", 7, true, []⟩]

/-- The executions of the job "backup" of the spec's end-to-end example. -/
def backupExecs : List Execution :=
  [⟨"backup", 8, true, []⟩, ⟨"backup", 7, true, [1]⟩, ⟨"backup", 7, false, [2]⟩]

end Dkron

namespace Dkron

/-! ## Lemmas on the map operations -/

theorem mapGet_mapSet_same (m : GroupMap) (k : Int) (v : List Execution) :
    mapGet (mapSet m k v) k = v := by
  induction m with
  | nil => simp [mapSet, mapGet]
  | cons kv rest ih =>
    obtain ⟨k', v'⟩ := kv
    by_cases h : k' = k
    · simp [mapSet, mapGet, h]
    · simp [mapSet, mapGet, h, ih]

theorem mapGet_mapSet_other (m : GroupMap) (k k' : Int) (v : List Execution) (h : k ≠ k') :
    mapGet (mapSet m k v) k' = mapGet m k' := by
  induction m with
  | nil => simp [mapSet, mapGet, h]
  | cons kv rest ih =>
    obtain ⟨k₀, v₀⟩ := kv
    by_cases h₀ : k₀ = k
    · subst h₀
      simp [mapSet, mapGet, h]
    · by_cases h₁ : k₀ = k'
      · subst h₁
        simp [mapSet, mapGet, h₀]
      · simp [mapSet, mapGet, h₀, h₁, ih]

theorem mapKeys_mapSet (m : GroupMap) (k : Int) (v : List Execution) :
    mapKeys (mapSet m k v) = if k ∈ mapKeys m then mapKeys m else mapKeys m ++ [k] := by
  induction m with
  | nil => simp [mapSet, mapKeys]
  | cons kv rest ih =>
    obtain ⟨k₀, v₀⟩ := kv
    by_cases h₀ : k₀ = k
    · subst h₀
      simp [mapSet, mapKeys]
    · have h₁ : ¬ k = k₀ := fun h => h₀ h.symm
      simp only [mapKeys] at ih
      by_cases hm : k ∈ List.map Prod.fst rest
      · simp [mapSet, mapKeys, h₀, h₁, hm, ih]
      · simp [mapSet, mapKeys, h₀, h₁, hm, ih]

theorem mapKeys_mapSet_nodup (m : GroupMap) (k : Int) (v : List Execution)
    (h : (mapKeys m).Nodup) : (mapKeys (mapSet m k v)).Nodup := by
  rw [mapKeys_mapSet]
  by_cases hm : k ∈ mapKeys m
  · simpa [hm] using h
  · simp only [hm, if_false]
    exact List.Nodup.append h (List.nodup_singleton k) (by simpa using hm)

theorem mem_mapKeys_mapSet (m : GroupMap) (k k' : Int) (v : List Execution) :
    k' ∈ mapKeys (mapSet m k v) ↔ k' ∈ mapKeys m ∨ k' = k := by
  rw [mapKeys_mapSet]
  by_cases hm : k ∈ mapKeys m
  · simp only [hm, if_true]
    constructor
    · exact Or.inl
    · rintro (h | h)
      · exact h
      · exact h ▸ hm
  · simp [hm]

theorem mapGet_of_not_mem (m : GroupMap) (k : Int) (h : k ∉ mapKeys m) : mapGet m k = [] := by
  induction m with
  | nil => rfl
  | cons kv rest ih =>
    obtain ⟨k₀, v₀⟩ := kv
    simp only [mapKeys, List.map_cons, List.mem_cons, not_or] at h
    have h₀ : ¬ k₀ = k := fun e => h.1 e.symm
    simp only [mapGet, h₀, if_false]
    exact ih h.2

theorem mapGet_entry (m : GroupMap) (h : (mapKeys m).Nodup) :
    ∀ kv ∈ m, mapGet m kv.1 = kv.2 := by
  induction m with
  | nil => simp
  | cons kv rest ih =>
    obtain ⟨k₀, v₀⟩ := kv
    simp only [mapKeys, List.map_cons, List.nodup_cons] at h
    intro kv hkv
    rcases List.mem_cons.1 hkv with rfl | hmem
    · simp [mapGet]
    · have hne : ¬ k₀ = kv.1 := by
        intro e
        exact h.1 (e ▸ List.mem_map_of_mem Prod.fst hmem)
      simp only [mapGet, hne, if_false]
      exact ih h.2 kv hmem

theorem mapSum_mapSet (f : List Execution → Nat) (hf : f [] = 0) (m : GroupMap) (k : Int)
    (v : List Execution) : mapSum f (mapSet m k v) + f (mapGet m k) = mapSum f m + f v := by
  induction m with
  | nil => simp [mapSet, mapGet, mapSum, hf]
  | cons kv rest ih =>
    obtain ⟨k₀, v₀⟩ := kv
    by_cases h₀ : k₀ = k
    · simp only [mapSet, mapGet, h₀, if_true, mapSum, List.map_cons, List.sum_cons]
      omega
    · simp only [mapSet, mapGet, h₀, if_false, mapSum, List.map_cons, List.sum_cons]
      simp only [mapSum] at ih
      omega

theorem mapSum_keys (f : List Execution → Nat) (m : GroupMap) (h : (mapKeys m).Nodup) :
    ((mapKeys m).map (fun k => f (mapGet m k))).sum = mapSum f m := by
  have hent := mapGet_entry m h
  simp only [mapKeys, mapSum, List.map_map]
  congr 1
  apply List.map_congr_left
  intro kv hkv
  simp [hent kv hkv]

/-! ## Lemmas on the grouping loop -/

theorem foldl_groupStep_get (es : List Execution) (m : GroupMap) (k : Int) :
    mapGet (es.foldl groupStep m) k = mapGet m k ++ es.filter (fun e => decide (e.Group = k)) := by
  induction es generalizing m with
  | nil => simp
  | cons e es ih =>
    rw [List.foldl_cons, ih]
    by_cases h : e.Group = k
    · subst h
      simp [groupStep, mapGet_mapSet_same]
    · simp [groupStep, mapGet_mapSet_other _ _ _ _ h, h]

theorem foldl_groupStep_nodup (es : List Execution) (m : GroupMap) (h : (mapKeys m).Nodup) :
    (mapKeys (es.foldl groupStep m)).Nodup := by
  induction es generalizing m with
  | nil => simpa using h
  | cons e es ih =>
    rw [List.foldl_cons]
    exact ih _ (mapKeys_mapSet_nodup m _ _ h)

theorem foldl_groupStep_mem (es : List Execution) (m : GroupMap) (k : Int) :
    k ∈ mapKeys (es.foldl groupStep m) ↔ k ∈ mapKeys m ∨ ∃ e ∈ es, e.Group = k := by
  induction es generalizing m with
  | nil => simp
  | cons e es ih =>
    rw [List.foldl_cons, ih, groupStep, mem_mapKeys_mapSet]
    simp only [List.mem_cons, exists_eq_or_imp]
    constructor
    · rintro ((h | h) | h)
      · exact Or.inl h
      · exact Or.inr (Or.inl h.symm)
      · exact Or.inr (Or.inr h)
    · rintro (h | h | h)
      · exact Or.inl (Or.inl h)
      · exact Or.inl (Or.inr h.symm)
      · exact Or.inr h

theorem foldl_groupStep_sum (f : List Execution → Nat) (hf : f [] = 0)
    (hadd : ∀ a b, f (a ++ b) = f a + f b) (es : List Execution) (m : GroupMap) :
    mapSum f (es.foldl groupStep m) = mapSum f m + f es := by
  induction es generalizing m with
  | nil => simp [hf]
  | cons e es ih =>
    rw [List.foldl_cons, ih]
    have h := mapSum_mapSet f hf m e.Group (mapGet m e.Group ++ [e])
    have h2 : f (e :: es) = f [e] + f es := by
      have := hadd [e] es
      simpa using this
    rw [hadd] at h
    simp only [groupStep]
    omega

theorem groupLoop_get (execs : List Execution) (k : Int) :
    mapGet (groupLoop execs) k = execs.filter (fun e => decide (e.Group = k)) := by
  simp [groupLoop, foldl_groupStep_get, mapGet]

theorem groupLoop_nodup (execs : List Execution) : (mapKeys (groupLoop execs)).Nodup :=
  foldl_groupStep_nodup execs [] (by simp [mapKeys])

theorem groupLoop_mem (execs : List Execution) (k : Int) :
    k ∈ mapKeys (groupLoop execs) ↔ ∃ e ∈ execs, e.Group = k := by
  rw [groupLoop, foldl_groupStep_mem]
  simp [mapKeys]

theorem groupLoop_sum (f : List Execution → Nat) (hf : f [] = 0)
    (hadd : ∀ a b, f (a ++ b) = f a + f b) (execs : List Execution) :
    ((mapKeys (groupLoop execs)).map (fun k => f (mapGet (groupLoop execs) k))).sum = f execs := by
  rw [mapSum_keys f _ (groupLoop_nodup execs), groupLoop, foldl_groupStep_sum f hf hadd]
  simp [mapSum]

/-! ## Lemmas on the ordering of the group ids -/

theorem sortInsert_perm (x : Int) (l : List Int) : (sortInsert x l).Perm (x :: l) := by
  induction l with
  | nil => simp [sortInsert]
  | cons y ys ih =>
    by_cases h : x < y
    · simp [sortInsert, int64Less, h]
    · simp only [sortInsert, int64Less, h, decide_False, Bool.false_eq_true, if_false]
      exact (List.Perm.cons y ih).trans (List.Perm.swap x y ys)

theorem sortInsert_sorted (x : Int) (l : List Int) (h : l.Pairwise (fun a b => a ≤ b)) :
    (sortInsert x l).Pairwise (fun a b => a ≤ b) := by
  induction l with
  | nil => simp [sortInsert]
  | cons y ys ih =>
    rw [List.pairwise_cons] at h
    by_cases hxy : x < y
    · simp only [sortInsert, int64Less, hxy, decide_True, if_true]
      refine List.pairwise_cons.2 ⟨?_, List.pairwise_cons.2 h⟩
      intro a ha
      rcases List.mem_cons.1 ha with rfl | ha'
      · exact le_of_lt hxy
      · exact le_trans (le_of_lt hxy) (h.1 a ha')
    · simp only [sortInsert, int64Less, hxy, decide_False, Bool.false_eq_true, if_false]
      refine List.pairwise_cons.2 ⟨?_, ih h.2⟩
      intro a ha
      rcases List.mem_cons.1 ((sortInsert_perm x ys).mem_iff.1 ha) with rfl | ha'
      · exact not_lt.1 hxy
      · exact h.1 a ha'

theorem foldl_sortInsert_perm (a acc : List Int) :
    (a.foldl (fun acc x => sortInsert x acc) acc).Perm (acc ++ a) := by
  induction a generalizing acc with
  | nil => simp
  | cons x xs ih =>
    rw [List.foldl_cons]
    refine (ih (sortInsert x acc)).trans ?_
    refine ((sortInsert_perm x acc).append_right xs).trans ?_
    simpa using (@List.perm_middle _ x acc xs).symm

theorem foldl_sortInsert_sorted (a acc : List Int) (h : acc.Pairwise (fun a b => a ≤ b)) :
    (a.foldl (fun acc x => sortInsert x acc) acc).Pairwise (fun a b => a ≤ b) := by
  induction a generalizing acc with
  | nil => simpa using h
  | cons x xs ih =>
    rw [List.foldl_cons]
    exact ih _ (sortInsert_sorted x acc h)

theorem sortInt64_perm (a : List Int) : (sortInt64 a).Perm a := by
  simpa [sortInt64] using foldl_sortInsert_perm a []

theorem sortInt64_sorted (a : List Int) : (sortInt64 a).Pairwise (fun x y => x ≤ y) :=
  foldl_sortInsert_sorted a [] List.Pairwise.nil

theorem sortInt64_strict (a : List Int) (h : a.Nodup) :
    (sortInt64 a).Pairwise (fun x y => x < y) := by
  have hnd : (sortInt64 a).Nodup := (sortInt64_perm a).nodup_iff.2 h
  exact ((sortInt64_sorted a).and hnd).imp (fun hab => lt_of_le_of_ne hab.1 hab.2)

theorem foldl_append_singleton (l acc : List Int) :
    l.foldl (fun acc key => acc ++ [key]) acc = acc ++ l := by
  induction l generalizing acc with
  | nil => simp
  | cons x xs ih => simp [ih]

theorem byGroupOf_perm (enum : List Int → List Int) (henum : IsEnumeration enum)
    (groups : GroupMap) : (byGroupOf enum groups).Perm (mapKeys groups) := by
  unfold byGroupOf
  rw [foldl_append_singleton]
  simpa using (sortInt64_perm _).trans (henum (mapKeys groups))

theorem byGroupOf_nodup (enum : List Int → List Int) (henum : IsEnumeration enum)
    (execs : List Execution) : (byGroupOf enum (groupLoop execs)).Nodup :=
  (byGroupOf_perm enum henum _).nodup_iff.2 (groupLoop_nodup execs)

theorem byGroupOf_strict (enum : List Int → List Int) (henum : IsEnumeration enum)
    (execs : List Execution) : (byGroupOf enum (groupLoop execs)).Pairwise (fun x y => x < y) := by
  unfold byGroupOf
  rw [foldl_append_singleton]
  apply sortInt64_strict
  simpa using (henum (mapKeys (groupLoop execs))).nodup_iff.2 (groupLoop_nodup execs)

theorem reverse_isEnumeration : IsEnumeration List.reverse :=
  fun ks => List.reverse_perm ks

/-! ## Execution grouper: the claims -/

/-- C1: after the grouping loop the keys of the map are distinct, every input
record is stored under the key equal to its own `Group` and under no other key,
and the groups taken together hold each record exactly as often as the input
does; in particular the group lengths add up to the input length. -/
theorem C1_grouping_partition (execs : List Execution) :
    (mapKeys (groupLoop execs)).Nodup ∧
    (∀ e ∈ execs, ∀ k : Int, e ∈ mapGet (groupLoop execs) k ↔ k = e.Group) ∧
    (∀ e : Execution,
      ((mapKeys (groupLoop execs)).map (fun k => (mapGet (groupLoop execs) k).count e)).sum
        = execs.count e) ∧
    ((mapKeys (groupLoop execs)).map (fun k => (mapGet (groupLoop execs) k).length)).sum
      = execs.length := by
  refine ⟨groupLoop_nodup execs, ?_, ?_, ?_⟩
  · intro e he k
    rw [groupLoop_get, List.mem_filter]
    constructor
    · intro h
      exact (of_decide_eq_true h.2).symm
    · intro h
      exact ⟨he, decide_eq_true h.symm⟩
  · intro e
    exact groupLoop_sum (fun l => l.count e) (by simp) (by intro a b; simp) execs
  · exact groupLoop_sum List.length (by simp) (by intro a b; simp) execs

/-- C1 at the spec's "backup" example: three records, groups 8 and 7. -/
theorem C1_grouping_partition_witness :
    (mapKeys (groupLoop backupExecs)).Nodup ∧
    (∀ e ∈ backupExecs, ∀ k : Int, e ∈ mapGet (groupLoop backupExecs) k ↔ k = e.Group) ∧
    (∀ e : Execution,
      ((mapKeys (groupLoop backupExecs)).map
        (fun k => (mapGet (groupLoop backupExecs) k).count e)).sum = backupExecs.count e) ∧
    ((mapKeys (groupLoop backupExecs)).map (fun k => (mapGet (groupLoop backupExecs) k).length)).sum
      = backupExecs.length :=
  C1_grouping_partition backupExecs

/-- C2: for every enumeration order of the map keys, the `ByGroup` sequence is
strictly ascending in numeric order, hence free of duplicates. -/
theorem C2_byGroup_strictly_ascending (enum : List Int → List Int) (henum : IsEnumeration enum)
    (execs : List Execution) :
    (byGroupOf enum (groupLoop execs)).Pairwise (fun x y => x < y) ∧
    (byGroupOf enum (groupLoop execs)).Nodup :=
  ⟨byGroupOf_strict enum henum execs, byGroupOf_nodup enum henum execs⟩

/-- C2 at the "backup" example with the keys enumerated in reverse storage order. -/
theorem C2_byGroup_strictly_ascending_witness :
    IsEnumeration List.reverse ∧
    byGroupOf List.reverse (groupLoop backupExecs) = [7, 8] ∧
    (byGroupOf List.reverse (groupLoop backupExecs)).Pairwise (fun x y => x < y) ∧
    (byGroupOf List.reverse (groupLoop backupExecs)).Nodup :=
  ⟨reverse_isEnumeration, by decide,
    C2_byGroup_strictly_ascending List.reverse reverse_isEnumeration backupExecs⟩

/-- C3: `ByGroup` contains an id exactly when some input execution has that
`Group`, it contains it once, and its length is the number of distinct `Group`
values of the input, which is the number of keys of the map. -/
theorem C3_byGroup_distinct_ids (enum : List Int → List Int) (henum : IsEnumeration enum)
    (execs : List Execution) :
    (∀ id : Int, id ∈ byGroupOf enum (groupLoop execs) ↔ ∃ e ∈ execs, e.Group = id) ∧
    (∀ id : Int, id ∈ byGroupOf enum (groupLoop execs) →
      (byGroupOf enum (groupLoop execs)).count id = 1) ∧
    (byGroupOf enum (groupLoop execs)).length = ((execs.map (fun e => e.Group)).dedup).length ∧
    (byGroupOf enum (groupLoop execs)).length = (mapKeys (groupLoop execs)).length := by
  have hperm := byGroupOf_perm enum henum (groupLoop execs)
  have hmem : ∀ id : Int, id ∈ byGroupOf enum (groupLoop execs) ↔ ∃ e ∈ execs, e.Group = id :=
    fun id => hperm.mem_iff.trans (groupLoop_mem execs id)
  refine ⟨hmem, ?_, ?_, hperm.length_eq⟩
  · intro id hid
    exact List.count_eq_one_of_mem (byGroupOf_nodup enum henum execs) hid
  · apply List.Perm.length_eq
    rw [List.perm_ext_iff_of_nodup (byGroupOf_nodup enum henum execs) (List.nodup_dedup _)]
    intro id
    rw [hmem id, List.mem_dedup, List.mem_map]

/-- C3 at the "backup" example with the keys enumerated in reverse storage order. -/
theorem C3_byGroup_distinct_ids_witness :
    IsEnumeration List.reverse ∧
    (∀ id : Int, id ∈ byGroupOf List.reverse (groupLoop backupExecs) ↔
      ∃ e ∈ backupExecs, e.Group = id) ∧
    (∀ id : Int, id ∈ byGroupOf List.reverse (groupLoop backupExecs) →
      (byGroupOf List.reverse (groupLoop backupExecs)).count id = 1) ∧
    (byGroupOf List.reverse (groupLoop backupExecs)).length
      = ((backupExecs.map (fun e => e.Group)).dedup).length ∧
    (byGroupOf List.reverse (groupLoop backupExecs)).length
      = (mapKeys (groupLoop backupExecs)).length :=
  ⟨reverse_isEnumeration,
    C3_byGroup_distinct_ids List.reverse reverse_isEnumeration backupExecs⟩

/-- C10: the slice stored under a group id is the sublist of the input made of
the records of that group, in input order. -/
theorem C10_group_in_arrival_order (execs : List Execution) (g : Int) :
    mapGet (groupLoop execs) g = execs.filter (fun e => decide (e.Group = g)) ∧
    (mapGet (groupLoop execs) g).Sublist execs := by
  rw [groupLoop_get]
  exact ⟨rfl, List.filter_sublist _⟩

/-! ## Status classifier -/

theorem foldl_count (execs : List Execution) (c : Nat × Nat) :
    execs.foldl
      (fun (c : Nat × Nat) ex => if ex.Success then (c.1 + 1, c.2) else (c.1, c.2 + 1)) c
      = (c.1 + execs.countP (fun ex => ex.Success),
         c.2 + execs.countP (fun ex => !ex.Success)) := by
  induction execs generalizing c with
  | nil => simp
  | cons ex rest ih =>
    rw [List.foldl_cons, ih]
    cases hs : ex.Success <;> simp [hs, List.countP_cons] <;> omega

theorem countLoop_eq (execs : List Execution) :
    countLoop execs
      = (execs.countP (fun ex => ex.Success), execs.countP (fun ex => !ex.Success)) := by
  simp [countLoop, foldl_count]

/-- C4: with `success` the number of records whose flag is true and `failed` the
number whose flag is false, the classifier returns "success" when `failed = 0`,
"danger" when `failed > 0` and `success = 0`, and "warning" when both are
positive. -/
theorem C4_status_rule (store : String → List Execution × Option String) (job : Job) :
    ((store job.Name).1.countP (fun ex => !ex.Success) = 0 →
      executionStatus store job = "success") ∧
    ((store job.Name).1.countP (fun ex => !ex.Success) > 0 ∧
      (store job.Name).1.countP (fun ex => ex.Success) = 0 →
      executionStatus store job = "danger") ∧
    ((store job.Name).1.countP (fun ex => !ex.Success) > 0 ∧
      (store job.Name).1.countP (fun ex => ex.Success) > 0 →
      executionStatus store job = "warning") := by
  simp only [executionStatus, executionStatusOf, countLoop_eq, statusLabel]
  refine ⟨?_, ?_, ?_⟩
  · intro h
    simp [h]
  · rintro ⟨hf, hs⟩
    have hf0 : ¬ List.countP (fun ex => !ex.Success) (store job.Name).1 = 0 := by omega
    simp [hf0, hf, hs]
  · rintro ⟨hf, hs⟩
    have hf0 : ¬ List.countP (fun ex => !ex.Success) (store job.Name).1 = 0 := by omega
    have hs0 : ¬ List.countP (fun ex => ex.Success) (store job.Name).1 = 0 := by omega
    simp [hf0, hf, hs0, hs]

/-- C4 on a group with one success and one failure: the label is "warning". -/
theorem C4_status_rule_witness :
    (mixedStore "backup").1.countP (fun ex => !ex.Success) > 0 ∧
    (mixedStore "backup").1.countP (fun ex => ex.Success) > 0 ∧
    executionStatus mixedStore ⟨"backup"⟩ = "warning" :=
  ⟨by decide, by decide,
    (C4_status_rule mixedStore ⟨"backup"⟩).2.2 ⟨by decide, by decide⟩⟩

/-- C5, refuted as stated: for a job without executions, whose store lookup
fails, the classifier returns "success" and not the empty label. -/
theorem C5_empty_group_counterexample :
    executionStatus emptyStore ⟨"cleanup"⟩ = "success" ∧
    ¬ (executionStatus emptyStore ⟨"cleanup"⟩ = "") := by
  decide

/-- C5, amended: when the latest execution group is absent or empty, both
counters stay 0, the first condition `failed == 0` holds and the classifier
returns "success". -/
theorem C5_empty_group_is_success (store : String → List Execution × Option String)
    (job : Job) (h : (store job.Name).1 = []) :
    countLoop (store job.Name).1 = (0, 0) ∧ executionStatus store job = "success" := by
  simp [executionStatus, executionStatusOf, h, countLoop, statusLabel]

/-- C5, amended, at the job "cleanup" of the spec's end-to-end example. -/
theorem C5_empty_group_is_success_witness :
    (emptyStore "cleanup").1 = [] ∧
    countLoop (emptyStore "cleanup").1 = (0, 0) ∧
    executionStatus emptyStore ⟨"cleanup"⟩ = "success" :=
  ⟨rfl, C5_empty_group_is_success emptyStore ⟨"cleanup"⟩ rfl⟩

/-! ## Display bounder -/

theorem sliceFrom_eq {α : Type} (xs : List α) (n : Nat) (h : n ≤ xs.length) :
    sliceFrom xs (n : Int) = some (xs.drop n) := by
  have h' : ((n : Int) ≤ (xs.length : Int)) := by exact_mod_cast h
  simp [sliceFrom, h']

theorem boundExecs_long (execs : List Execution) (h : execs.length > 100) :
    boundExecs execs = some (execs.drop (execs.length - 100)) := by
  have hc : ((execs.length : Int) - 100) = ((execs.length - 100 : Nat) : Int) := by omega
  simp only [boundExecs, h, if_true, hc]
  exact sliceFrom_eq execs _ (by omega)

theorem boundExecs_isSome (execs : List Execution) : (boundExecs execs).isSome = true := by
  by_cases h : execs.length > 100
  · simp [boundExecs_long execs h]
  · simp [boundExecs, h]

/-- C6: the bounding step never fails; it returns the input unchanged when it has
at most 100 records, and otherwise the last 100 records in their original order
(the list of length 100 that is a suffix of the input). -/
theorem C6_bound_last_hundred (execs : List Execution) :
    (boundExecs execs).isSome = true ∧
    (execs.length ≤ 100 → boundExecs execs = some execs) ∧
    (execs.length > 100 →
      boundExecs execs = some (execs.drop (execs.length - 100)) ∧
      (execs.drop (execs.length - 100)).length = 100 ∧
      List.IsSuffix (execs.drop (execs.length - 100)) execs ∧
      ∀ i : Nat, i < 100 →
        (execs.drop (execs.length - 100))[i]? = execs[execs.length - 100 + i]?) := by
  refine ⟨boundExecs_isSome execs, ?_, ?_⟩
  · intro h
    have h' : ¬ execs.length > 100 := by omega
    simp [boundExecs, h']
  · intro h
    refine ⟨boundExecs_long execs h, ?_, List.drop_suffix _ _, ?_⟩
    · rw [List.length_drop]
      omega
    · intro i _
      rw [List.getElem?_drop]

/-- C6 on a short input (3 records) and on a long one (101 records). -/
theorem C6_bound_last_hundred_witness :
    (backupExecs.length ≤ 100 ∧ boundExecs backupExecs = some backupExecs) ∧
    (longExecs.length > 100 ∧
      boundExecs longExecs = some (longExecs.drop (longExecs.length - 100)) ∧
      (longExecs.drop (longExecs.length - 100)).length = 100) :=
  ⟨⟨by decide, (C6_bound_last_hundred backupExecs).2.1 (by decide)⟩,
    ⟨by decide,
      ((C6_bound_last_hundred longExecs).2.2 (by decide)).1,
      ((C6_bound_last_hundred longExecs).2.2 (by decide)).2.1⟩⟩

/-! ## The execution-list view -/

theorem dashboardExecutionsHandler_eq (store : String → List Execution × Option String)
    (enum : List Int → List Int) (job : String) :
    dashboardExecutionsHandler store enum job
      = some { Groups := groupLoop (store job).1, JobName := job,
               ByGroup := byGroupOf enum (groupLoop (store job).1) } := by
  have h := boundExecs_isSome (store job).1
  unfold dashboardExecutionsHandler
  cases hb : boundExecs (store job).1 with
  | none => simp [hb] at h
  | some l => simp only [hb]

theorem totalRecords_groupLoop (execs : List Execution) :
    totalRecords (groupLoop execs) = execs.length := by
  have h := foldl_groupStep_sum List.length (by simp) (by intro a b; simp) execs []
  simpa [totalRecords, groupLoop, mapSum] using h

set_option maxRecDepth 100000 in
/-- C7, the code at a history of 101 executions (one in group 1, then 100 in
group 2): the view data holds all 101 records and lists group 1, although the
bounding step on the same input keeps 100 records, whose grouping has the single
id 2. -/
theorem C7_view_holds_unbounded_groups :
    ∃ d : ExecutionsData,
      dashboardExecutionsHandler longStore id "job" = some d ∧
      totalRecords d.Groups = 101 ∧
      d.ByGroup = [1, 2] ∧
      (boundExecs longExecs).map (fun l => (totalRecords (groupLoop l), byGroupOf id (groupLoop l)))
        = some (100, [2]) := by
  refine ⟨_, dashboardExecutionsHandler_eq longStore id "job", ?_, ?_, ?_⟩
  · rw [totalRecords_groupLoop]
    rfl
  · decide
  · decide

/-! ## Text truncator -/

theorem runeWidth_one (b0 : Nat) (rest : List Nat) (h0 : b0 < 0x80) :
    runeWidth (b0 :: rest) = 1 := by
  have h : seqLen b0 = 1 := by simp [seqLen, h0]
  simp [runeWidth, h]

theorem runeWidth_two (b0 b1 : Nat) (rest : List Nat) (h0 : 0xC2 ≤ b0 ∧ b0 ≤ 0xDF)
    (h1 : 0x80 ≤ b1 ∧ b1 ≤ 0xBF) : runeWidth (b0 :: b1 :: rest) = 2 := by
  have h : seqLen b0 = 2 := by
    unfold seqLen
    split_ifs <;> omega
  have hlo : acceptLo b0 = 0x80 := by
    unfold acceptLo
    split_ifs <;> omega
  have hhi : acceptHi b0 = 0xBF := by
    unfold acceptHi
    split_ifs <;> omega
  simp [runeWidth, h, hlo, hhi, h1]

theorem runeWidth_three (b0 b1 b2 : Nat) (rest : List Nat) (h0 : 0xE0 ≤ b0 ∧ b0 ≤ 0xEF)
    (h1 : acceptLo b0 ≤ b1 ∧ b1 ≤ acceptHi b0) (h2 : 0x80 ≤ b2 ∧ b2 ≤ 0xBF) :
    runeWidth (b0 :: b1 :: b2 :: rest) = 3 := by
  have h : seqLen b0 = 3 := by
    unfold seqLen
    split_ifs <;> omega
  simp [runeWidth, h, h1, h2, isCont]

theorem runeWidth_four (b0 b1 b2 b3 : Nat) (rest : List Nat) (h0 : 0xF0 ≤ b0 ∧ b0 ≤ 0xF4)
    (h1 : acceptLo b0 ≤ b1 ∧ b1 ≤ acceptHi b0) (h2 : 0x80 ≤ b2 ∧ b2 ≤ 0xBF)
    (h3 : 0x80 ≤ b3 ∧ b3 ≤ 0xBF) :
    runeWidth (b0 :: b1 :: b2 :: b3 :: rest) = 4 := by
  have h : seqLen b0 = 4 := by
    unfold seqLen
    split_ifs <;> omega
  simp [runeWidth, h, h1, h2, h3, isCont]

theorem runeWidth_encodeRune (c : Char) (rest : List Nat) :
    runeWidth (encodeRune c.toNat ++ rest) = (encodeRune c.toNat).length := by
  have hv : c.toNat < 0xd800 ∨ (0xdfff < c.toNat ∧ c.toNat < 0x110000) := c.valid
  generalize c.toNat = n at hv
  unfold encodeRune
  by_cases h1 : n < 0x80
  · simp only [h1, if_true, List.singleton_append, List.length_singleton]
    exact runeWidth_one n rest h1
  · by_cases h2 : n < 0x800
    · simp only [h1, h2, if_true, if_false, List.cons_append, List.nil_append, List.length_cons,
        List.length_nil]
      exact runeWidth_two _ _ rest (by omega) (by omega)
    · by_cases h3 : n < 0x10000
      · simp only [h1, h2, h3, if_true, if_false, List.cons_append, List.nil_append,
          List.length_cons, List.length_nil]
        refine runeWidth_three _ _ _ rest (by omega) ?_ (by omega)
        unfold acceptLo acceptHi
        split_ifs <;> omega
      · simp only [h1, h2, h3, if_false, List.cons_append, List.nil_append,
          List.length_cons, List.length_nil]
        refine runeWidth_four _ _ _ _ rest (by omega) ?_ (by omega) (by omega)
        unfold acceptLo acceptHi
        split_ifs <;> omega

theorem encodeRune_length_pos (n : Nat) : 0 < (encodeRune n).length := by
  unfold encodeRune
  split_ifs <;> simp

theorem utf8Encode_nil : utf8Encode [] = [] := rfl

theorem utf8Encode_cons (c : Char) (cs : List Char) :
    utf8Encode (c :: cs) = encodeRune c.toNat ++ utf8Encode cs := by
  simp [utf8Encode]

theorem utf8Encode_append (as bs : List Char) :
    utf8Encode (as ++ bs) = utf8Encode as ++ utf8Encode bs := by
  simp [utf8Encode]

theorem length_le_utf8Encode (cs : List Char) : cs.length ≤ (utf8Encode cs).length := by
  induction cs with
  | nil => simp [utf8Encode_nil]
  | cons c cs ih =>
    have := encodeRune_length_pos c.toNat
    rw [utf8Encode_cons, List.length_append, List.length_cons]
    omega

theorem sliceTo_eq {α : Type} (xs : List α) (n : Nat) (h : n ≤ xs.length) :
    sliceTo xs (n : Int) = some (xs.take n) := by
  have h' : ((n : Int) ≤ (xs.length : Int)) := by exact_mod_cast h
  simp [sliceTo, h']

theorem truncateLoop_utf8 (cs : List Char) :
    ∀ (pre : List Char) (n fuel : Nat), n ≤ 25 → cs.length + 1 ≤ fuel →
      truncateLoop (utf8Encode pre ++ utf8Encode cs) fuel (utf8Encode pre).length n
        = some (utf8Encode pre ++ utf8Encode (cs.take (25 - n))) := by
  induction cs with
  | nil =>
    intro pre n fuel _ hfuel
    obtain ⟨fuel, rfl⟩ : ∃ f, fuel = f + 1 := ⟨fuel - 1, by simp at hfuel; omega⟩
    simp [truncateLoop, utf8Encode_nil]
  | cons c cs ih =>
    intro pre n fuel hn hfuel
    obtain ⟨fuel, rfl⟩ : ∃ f, fuel = f + 1 := ⟨fuel - 1, by simp at hfuel; omega⟩
    have hpos := encodeRune_length_pos c.toNat
    have hlt : (utf8Encode pre).length < (utf8Encode pre ++ utf8Encode (c :: cs)).length := by
      rw [List.length_append, utf8Encode_cons, List.length_append]
      omega
    rw [truncateLoop]
    simp only [hlt, if_true]
    by_cases h25 : n + 1 > 25
    · have hn25 : 25 - n = 0 := by omega
      simp only [h25, if_true, hn25, List.take_zero, utf8Encode_nil, List.append_nil]
      rw [sliceTo_eq _ _ (le_of_lt hlt)]
      simp
    · simp only [h25, if_false]
      have hdrop : List.drop (utf8Encode pre).length (utf8Encode pre ++ utf8Encode (c :: cs))
          = encodeRune c.toNat ++ utf8Encode cs := by
        rw [List.drop_left, utf8Encode_cons]
      rw [hdrop, runeWidth_encodeRune]
      have hs : utf8Encode pre ++ utf8Encode (c :: cs)
          = utf8Encode (pre ++ [c]) ++ utf8Encode cs := by
        rw [utf8Encode_append, utf8Encode_cons, utf8Encode_cons, utf8Encode_nil]
        simp
      have hi : (utf8Encode pre).length + (encodeRune c.toNat).length
          = (utf8Encode (pre ++ [c])).length := by
        rw [utf8Encode_append, utf8Encode_cons, utf8Encode_nil]
        simp
      rw [hs, hi, ih (pre ++ [c]) (n + 1) fuel (by omega) (by simp at hfuel ⊢; omega)]
      have hk : 25 - n = (25 - (n + 1)) + 1 := by omega
      rw [hk, List.take_succ_cons, utf8Encode_append, utf8Encode_cons c (List.take _ cs),
        utf8Encode_cons, utf8Encode_nil]
      simp

theorem truncate_utf8 (cs : List Char) :
    truncate (utf8Encode cs) = some (utf8Encode (cs.take 25)) := by
  have h := truncateLoop_utf8 cs [] 0 ((utf8Encode cs).length + 1) (by omega)
    (by have := length_le_utf8Encode cs; omega)
  simpa [truncate, utf8Encode_nil] using h

theorem runeWidth_bounds (b0 : Nat) (rest : List Nat) :
    1 ≤ runeWidth (b0 :: rest) ∧ runeWidth (b0 :: rest) ≤ (b0 :: rest).length := by
  simp only [runeWidth]
  split <;> (try split_ifs) <;> simp

theorem truncateLoop_isSome (s : List Nat) :
    ∀ (fuel index n : Nat), index ≤ s.length → s.length + 1 ≤ fuel + index →
      (truncateLoop s fuel index n).isSome = true := by
  intro fuel
  induction fuel with
  | zero =>
    intro index n h1 h2
    omega
  | succ fuel ih =>
    intro index n h1 h2
    rw [truncateLoop]
    by_cases hlt : index < s.length
    · simp only [hlt, if_true]
      by_cases h25 : n + 1 > 25
      · simp only [h25, if_true]
        rw [sliceTo_eq _ _ h1]
        rfl
      · simp only [h25, if_false]
        obtain ⟨b0, rest, hd⟩ : ∃ b0 rest, s.drop index = b0 :: rest := by
          cases hd : s.drop index with
          | nil =>
            have := congrArg List.length hd
            simp at this
            omega
          | cons b0 rest => exact ⟨b0, rest, rfl⟩
        have hb := runeWidth_bounds b0 rest
        have hl : (b0 :: rest).length = s.length - index := by
          rw [← hd, List.length_drop]
        rw [hd]
        apply ih
        · omega
        · omega
    · simp [hlt]

theorem truncate_isSome (s : List Nat) : (truncate s).isSome = true :=
  truncateLoop_isSome s (s.length + 1) 0 0 (by omega) (by omega)

/-- C8: on the UTF-8 encoding of any sequence of characters `cs`, `truncate`
returns the string itself when `cs` has at most 25 characters and otherwise the
encoding of exactly the first 25 characters; 30 ASCII letters give the first 25
letters and 30 three-byte characters give the first 25 characters, 75 bytes. -/
theorem C8_truncate_first_25_chars (cs : List Char) :
    truncate (utf8Encode cs)
      = some (if cs.length ≤ 25 then utf8Encode cs else utf8Encode (cs.take 25)) ∧
    truncate (utf8Encode (List.replicate 30 'a')) = some (utf8Encode (List.replicate 25 'a')) ∧
    truncate (utf8Encode (List.replicate 30 '€')) = some (utf8Encode (List.replicate 25 '€')) ∧
    (utf8Encode (List.replicate 30 '€')).length = 90 ∧
    (utf8Encode (List.replicate 25 '€')).length = 75 := by
  refine ⟨?_, ?_, ?_, by decide, by decide⟩
  · rw [truncate_utf8]
    by_cases h : cs.length ≤ 25
    · simp [h, List.take_of_length_le h]
    · simp [h]
  · rw [truncate_utf8]
    simp
  · rw [truncate_utf8]
    simp

/-- C9: on every valid UTF-8 string `truncate` returns a result (the slice index
is in range), and the result is a byte-prefix of the input cut at a character
boundary: it encodes the first `k` characters of the input, the remainder encodes
the other characters, and so the result is itself valid UTF-8. -/
theorem C9_truncate_well_formed (s : List Nat) (h : ValidUTF8 s) :
    ∃ out : List Nat, truncate s = some out ∧ List.IsPrefix out s ∧ ValidUTF8 out ∧
      ∃ (cs : List Char) (k : Nat), s = utf8Encode cs ∧ out = utf8Encode (cs.take k) ∧
        s = out ++ utf8Encode (cs.drop k) := by
  obtain ⟨cs, rfl⟩ := h
  have hsplit : utf8Encode cs = utf8Encode (cs.take 25) ++ utf8Encode (cs.drop 25) := by
    rw [← utf8Encode_append, List.take_append_drop]
  refine ⟨utf8Encode (cs.take 25), truncate_utf8 cs, ⟨utf8Encode (cs.drop 25), hsplit.symm⟩,
    ⟨cs.take 25, rfl⟩, cs, 25, rfl, rfl, hsplit⟩

/-- C9 on a string of 30 three-byte characters. -/
theorem C9_truncate_well_formed_witness :
    ValidUTF8 (utf8Encode (List.replicate 30 '€')) ∧
    ∃ out : List Nat, truncate (utf8Encode (List.replicate 30 '€')) = some out ∧
      List.IsPrefix out (utf8Encode (List.replicate 30 '€')) ∧ ValidUTF8 out ∧
      ∃ (cs : List Char) (k : Nat), utf8Encode (List.replicate 30 '€') = utf8Encode cs ∧
        out = utf8Encode (cs.take k) ∧
        utf8Encode (List.replicate 30 '€') = out ++ utf8Encode (cs.drop k) :=
  ⟨⟨List.replicate 30 '€', rfl⟩,
    C9_truncate_well_formed (utf8Encode (List.replicate 30 '€')) ⟨List.replicate 30 '€', rfl⟩⟩

/-! ## Execution grouper: order, non-empty groups, empty input -/

theorem sortInt64_eq_of_perm (ks₁ ks₂ : List Int) (h : ks₁.Perm ks₂) :
    sortInt64 ks₁ = sortInt64 ks₂ :=
  List.eq_of_perm_of_sorted
    (((sortInt64_perm ks₁).trans h).trans (sortInt64_perm ks₂).symm)
    (sortInt64_sorted ks₁) (sortInt64_sorted ks₂)

theorem byGroupOf_sorted (enum : List Int → List Int) (groups : GroupMap) :
    (byGroupOf enum groups).Pairwise (fun x y => x ≤ y) :=
  sortInt64_sorted _

theorem byGroupOf_mem (enum : List Int → List Int) (henum : IsEnumeration enum)
    (execs : List Execution) (id : Int) :
    id ∈ byGroupOf enum (groupLoop execs) ↔ ∃ e ∈ execs, e.Group = id :=
  (byGroupOf_perm enum henum (groupLoop execs)).mem_iff.trans (groupLoop_mem execs id)

theorem byGroupOf_eq_of_same_groups (enum₁ enum₂ : List Int → List Int)
    (h₁ : IsEnumeration enum₁) (h₂ : IsEnumeration enum₂) (execs₁ execs₂ : List Execution)
    (hg : ∀ g : Int, (∃ e ∈ execs₁, e.Group = g) ↔ (∃ e ∈ execs₂, e.Group = g)) :
    byGroupOf enum₁ (groupLoop execs₁) = byGroupOf enum₂ (groupLoop execs₂) := by
  refine List.eq_of_perm_of_sorted ?_ (byGroupOf_sorted _ _) (byGroupOf_sorted _ _)
  rw [List.perm_ext_iff_of_nodup (byGroupOf_nodup enum₁ h₁ execs₁)
    (byGroupOf_nodup enum₂ h₂ execs₂)]
  intro g
  rw [byGroupOf_mem enum₁ h₁, byGroupOf_mem enum₂ h₂, hg g]

theorem id_isEnumeration : IsEnumeration id :=
  fun ks => List.Perm.refl ks

/-- C11: the display order is deterministic. Sorting two enumerations of the same
keys gives the same sequence, so `ByGroup` does not depend on the order in which
the map keys are enumerated; and two input lists with the same set of `Group`
values give the same `ByGroup`. -/
theorem C11_byGroup_deterministic (enum₁ enum₂ : List Int → List Int)
    (h₁ : IsEnumeration enum₁) (h₂ : IsEnumeration enum₂) (execs₁ execs₂ : List Execution) :
    (∀ ks₁ ks₂ : List Int, ks₁.Perm ks₂ → sortInt64 ks₁ = sortInt64 ks₂) ∧
    byGroupOf enum₁ (groupLoop execs₁) = byGroupOf enum₂ (groupLoop execs₁) ∧
    ((∀ g : Int, (∃ e ∈ execs₁, e.Group = g) ↔ (∃ e ∈ execs₂, e.Group = g)) →
      byGroupOf enum₁ (groupLoop execs₁) = byGroupOf enum₂ (groupLoop execs₂)) :=
  ⟨sortInt64_eq_of_perm,
    byGroupOf_eq_of_same_groups enum₁ enum₂ h₁ h₂ execs₁ execs₁ (fun _ => Iff.rfl),
    byGroupOf_eq_of_same_groups enum₁ enum₂ h₁ h₂ execs₁ execs₂⟩

/-- C11 on two histories with the groups 7 and 8, the keys enumerated in storage
order and in reverse storage order. -/
theorem C11_byGroup_deterministic_witness :
    IsEnumeration id ∧ IsEnumeration List.reverse ∧
    (∀ g : Int, (∃ e ∈ backupExecs, e.Group = g) ↔ (∃ e ∈ shuffledExecs, e.Group = g)) ∧
    byGroupOf id (groupLoop backupExecs) = byGroupOf List.reverse (groupLoop backupExecs) ∧
    byGroupOf id (groupLoop backupExecs) = byGroupOf List.reverse (groupLoop shuffledExecs) :=
  have hg : ∀ g : Int,
      (∃ e ∈ backupExecs, e.Group = g) ↔ (∃ e ∈ shuffledExecs, e.Group = g) := by
    intro g
    have hmap : ∀ l : List Execution,
        (∃ e ∈ l, e.Group = g) ↔ g ∈ l.map (fun e => e.Group) := by
      intro l
      simp [List.mem_map]
    rw [hmap, hmap]
    simp only [backupExecs, shuffledExecs, List.map_cons, List.map_nil, List.mem_cons,
      List.not_mem_nil, or_false]
    constructor
    · rintro (h | h | h) <;> simp [h]
    · rintro (h | h | h | h) <;> simp [h]
  ⟨id_isEnumeration, reverse_isEnumeration, hg,
    (C11_byGroup_deterministic id List.reverse id_isEnumeration reverse_isEnumeration
      backupExecs shuffledExecs).2.1,
    (C11_byGroup_deterministic id List.reverse id_isEnumeration reverse_isEnumeration
      backupExecs shuffledExecs).2.2 hg⟩

theorem mapGet_groupLoop_ne_nil (execs : List Execution) (k : Int)
    (hk : k ∈ mapKeys (groupLoop execs)) : mapGet (groupLoop execs) k ≠ [] := by
  obtain ⟨e, he, hek⟩ := (groupLoop_mem execs k).1 hk
  rw [groupLoop_get]
  intro hnil
  have hmem : e ∈ execs.filter (fun e => decide (e.Group = k)) :=
    List.mem_filter.2 ⟨he, decide_eq_true hek⟩
  rw [hnil] at hmem
  exact List.not_mem_nil e hmem

/-- C12: every group of the map holds one or more executions: the slice of every
key is non-empty, every stored entry is non-empty, and every id of `ByGroup`
looks up a non-empty slice. -/
theorem C12_groups_nonempty (enum : List Int → List Int) (henum : IsEnumeration enum)
    (execs : List Execution) :
    (∀ k ∈ mapKeys (groupLoop execs), 1 ≤ (mapGet (groupLoop execs) k).length) ∧
    (∀ kv ∈ groupLoop execs, kv.2 ≠ []) ∧
    (∀ id ∈ byGroupOf enum (groupLoop execs), mapGet (groupLoop execs) id ≠ []) := by
  refine ⟨?_, ?_, ?_⟩
  · intro k hk
    exact List.length_pos.2 (mapGet_groupLoop_ne_nil execs k hk)
  · intro kv hkv
    rw [← mapGet_entry (groupLoop execs) (groupLoop_nodup execs) kv hkv]
    exact mapGet_groupLoop_ne_nil execs kv.1 (List.mem_map_of_mem Prod.fst hkv)
  · intro id hid
    exact mapGet_groupLoop_ne_nil execs id
      ((byGroupOf_perm enum henum (groupLoop execs)).mem_iff.1 hid)

/-- C12 at the "backup" example with the keys enumerated in reverse storage order. -/
theorem C12_groups_nonempty_witness :
    IsEnumeration List.reverse ∧
    (∀ k ∈ mapKeys (groupLoop backupExecs), 1 ≤ (mapGet (groupLoop backupExecs) k).length) ∧
    (∀ kv ∈ groupLoop backupExecs, kv.2 ≠ []) ∧
    (∀ id ∈ byGroupOf List.reverse (groupLoop backupExecs),
      mapGet (groupLoop backupExecs) id ≠ []) :=
  ⟨reverse_isEnumeration, C12_groups_nonempty List.reverse reverse_isEnumeration backupExecs⟩

/-- C13: when the store returns no execution for the job, the handler does not
fail and its view data has the empty `Groups` map and the empty `ByGroup`
sequence, whatever the enumeration order. -/
theorem C13_empty_input_empty_view (store : String → List Execution × Option String)
    (enum : List Int → List Int) (henum : IsEnumeration enum) (job : String)
    (hempty : (store job).1 = []) :
    groupLoop (store job).1 = [] ∧
    byGroupOf enum (groupLoop (store job).1) = [] ∧
    dashboardExecutionsHandler store enum job
      = some { Groups := [], JobName := job, ByGroup := [] } := by
  have hg : groupLoop (store job).1 = [] := by rw [hempty]; rfl
  have hb : byGroupOf enum (groupLoop (store job).1) = [] := by
    have hp := byGroupOf_perm enum henum (groupLoop (store job).1)
    rw [hg] at hp ⊢
    exact List.Perm.eq_nil hp
  refine ⟨hg, hb, ?_⟩
  rw [dashboardExecutionsHandler_eq, hb, hg]

/-- C13 at the job "cleanup" of the spec's end-to-end example. -/
theorem C13_empty_input_empty_view_witness :
    IsEnumeration List.reverse ∧ (emptyStore "cleanup").1 = [] ∧
    groupLoop (emptyStore "cleanup").1 = [] ∧
    byGroupOf List.reverse (groupLoop (emptyStore "cleanup").1) = [] ∧
    dashboardExecutionsHandler emptyStore List.reverse "cleanup"
      = some { Groups := [], JobName := "cleanup", ByGroup := [] } :=
  ⟨reverse_isEnumeration, rfl,
    C13_empty_input_empty_view emptyStore List.reverse reverse_isEnumeration "cleanup" rfl⟩

/-! ## View metadata -/

/-- C14: `newCommonDashboardData` sets `Path` to the given path followed by
"dashboard" and `APIPath` to the given path followed by "v1", and copies
`Version`, `MemberName`, `Backend` and `Keyspace` from the agent, the node name
and the configuration; the index view passes "", the job-list view "../" and the
execution-list view "../../../", each with the configured node name. -/
theorem C14_common_paths (a : AgentCommand) (nodeName path : String)
    (jobs : List Job × Option String) :
    (newCommonDashboardData a nodeName path).Path = path ++ "dashboard" ∧
    (newCommonDashboardData a nodeName path).APIPath = path ++ "v1" ∧
    (newCommonDashboardData a nodeName path).Version = a.Version ∧
    (newCommonDashboardData a nodeName path).MemberName = nodeName ∧
    (newCommonDashboardData a nodeName path).Backend = a.config.Backend ∧
    (newCommonDashboardData a nodeName path).Keyspace = a.config.Keyspace ∧
    (dashboardIndexHandler a).Common = newCommonDashboardData a a.config.NodeName "" ∧
    (dashboardJobsHandler a jobs).Common = newCommonDashboardData a a.config.NodeName "../" ∧
    dashboardExecutionsCommon a = newCommonDashboardData a a.config.NodeName "../../../" ∧
    (dashboardIndexHandler a).Common.Path = "dashboard" ∧
    (dashboardJobsHandler a jobs).Common.Path = "../dashboard" ∧
    (dashboardExecutionsCommon a).Path = "../../../dashboard" ∧
    (dashboardIndexHandler a).Common.APIPath = "v1" ∧
    (dashboardJobsHandler a jobs).Common.APIPath = "../v1" ∧
    (dashboardExecutionsCommon a).APIPath = "../../../v1" := by
  refine ⟨rfl, rfl, rfl, rfl, rfl, rfl, rfl, rfl, rfl, ?_, ?_, ?_, ?_, ?_, ?_⟩ <;>
    simp only [dashboardIndexHandler, dashboardJobsHandler, dashboardExecutionsCommon,
      newCommonDashboardData, dashboardPathPrefix, apiPathPrefix] <;>
    decide

/-- C15: when no leader is known the leader lookup reports an error, which
`newCommonDashboardData` discards: it returns the view metadata with the empty
`LeaderName` and every other field filled as usual. -/
theorem C15_no_leader_empty_name (a : AgentCommand) (nodeName path : String)
    (h : a.leader = none) :
    (leaderMember a).2 ≠ none ∧
    newCommonDashboardData a nodeName path
      = { Version := a.Version, LeaderName := "", MemberName := nodeName,
          Backend := a.config.Backend, Path := path ++ "dashboard",
          APIPath := path ++ "v1", Keyspace := a.config.Keyspace } := by
  simp [newCommonDashboardData, leaderMember, h, dashboardPathPrefix, apiPathPrefix]

/-- C15 at an agent without a known leader, for the job-list view. -/
theorem C15_no_leader_empty_name_witness :
    leaderlessAgent.leader = none ∧
    (leaderMember leaderlessAgent).2 ≠ none ∧
    newCommonDashboardData leaderlessAgent "node1" "../"
      = { Version := "0.9.4", LeaderName := "", MemberName := "node1",
          Backend := "etcd", Path := "../" ++ "dashboard",
          APIPath := "../" ++ "v1", Keyspace := "dkron" } :=
  ⟨rfl, C15_no_leader_empty_name leaderlessAgent "node1" "../" rfl⟩

/-! ## Status classifier: range and symmetry -/

theorem statusLabel_cases (success failed : Nat) :
    statusLabel success failed = "success" ∨ statusLabel success failed = "danger" ∨
      statusLabel success failed = "warning" := by
  unfold statusLabel
  by_cases h0 : failed = 0
  · simp [h0]
  · by_cases h1 : success = 0
    · have hpos : failed > 0 := by omega
      simp [h0, h1, hpos]
    · have hpos : failed > 0 := by omega
      have hs : success > 0 := by omega
      simp [h0, h1, hpos, hs]

theorem statusLabel_ne_empty (success failed : Nat) : statusLabel success failed ≠ "" := by
  rcases statusLabel_cases success failed with h | h | h <;> rw [h] <;> decide

/-- C16: for every list of executions the store returns, the empty one included,
the classifier returns "success", "danger" or "warning"; the three conditions
of its chain cover every pair of counters, so the final `return ""` is not
reached and the result is never the empty string. -/
theorem C16_status_never_empty (store : String → List Execution × Option String) (job : Job) :
    (executionStatus store job = "success" ∨ executionStatus store job = "danger" ∨
      executionStatus store job = "warning") ∧
    executionStatus store job ≠ "" ∧
    (∀ success failed : Nat, statusLabel success failed ≠ "") ∧
    (∀ success failed : Nat,
      failed = 0 ∨ (failed > 0 ∧ success = 0) ∨ (failed > 0 ∧ success > 0)) ∧
    executionStatusOf [] = "success" := by
  refine ⟨statusLabel_cases _ _, statusLabel_ne_empty _ _, statusLabel_ne_empty, ?_, by decide⟩
  intro success failed
  omega

theorem countLoop_append (pre post : List Execution) :
    countLoop (pre ++ post)
      = post.foldl
          (fun (c : Nat × Nat) ex => if ex.Success then (c.1 + 1, c.2) else (c.1, c.2 + 1))
          (countLoop pre) := by
  simp [countLoop, List.foldl_append]

theorem countLoop_sum (execs : List Execution) :
    (countLoop execs).1 + (countLoop execs).2 = execs.length := by
  rw [countLoop_eq]
  induction execs with
  | nil => simp
  | cons ex rest ih =>
    cases hs : ex.Success <;> simp [List.countP_cons, hs] at ih ⊢ <;> omega

theorem executionStatusOf_eq_of_counts (l₁ l₂ : List Execution)
    (hs : l₁.countP (fun ex => ex.Success) = l₂.countP (fun ex => ex.Success))
    (hf : l₁.countP (fun ex => !ex.Success) = l₂.countP (fun ex => !ex.Success)) :
    executionStatusOf l₁ = executionStatusOf l₂ := by
  simp only [executionStatusOf, countLoop_eq, hs, hf]

/-- C18: the classifier depends only on the multiset of `Success` flags: two
lists that are permutations of each other, or that merely have the same number
of successful and of failed records, get the same label; and after any number
of iterations of the counting loop `success + failed` is the number of records
processed so far. -/
theorem C18_status_depends_on_counts (l₁ l₂ : List Execution) :
    (l₁.Perm l₂ → executionStatusOf l₁ = executionStatusOf l₂) ∧
    (l₁.countP (fun ex => ex.Success) = l₂.countP (fun ex => ex.Success) ∧
      l₁.countP (fun ex => !ex.Success) = l₂.countP (fun ex => !ex.Success) →
      executionStatusOf l₁ = executionStatusOf l₂) ∧
    (∀ pre post : List Execution, l₁ = pre ++ post →
      (countLoop pre).1 + (countLoop pre).2 = pre.length ∧
      countLoop l₁ = post.foldl
        (fun (c : Nat × Nat) ex => if ex.Success then (c.1 + 1, c.2) else (c.1, c.2 + 1))
        (countLoop pre)) := by
  refine ⟨?_, ?_, ?_⟩
  · intro hp
    exact executionStatusOf_eq_of_counts l₁ l₂ (hp.countP_eq _) (hp.countP_eq _)
  · rintro ⟨hs, hf⟩
    exact executionStatusOf_eq_of_counts l₁ l₂ hs hf
  · rintro pre post rfl
    exact ⟨countLoop_sum pre, countLoop_append pre post⟩

/-- C18 on the "backup" history and its reversal, split after the first record. -/
theorem C18_status_depends_on_counts_witness :
    backupExecs.Perm backupExecs.reverse ∧
    executionStatusOf backupExecs = executionStatusOf backupExecs.reverse ∧
    backupExecs = backupExecs.take 1 ++ backupExecs.drop 1 ∧
    (countLoop (backupExecs.take 1)).1 + (countLoop (backupExecs.take 1)).2
      = (backupExecs.take 1).length :=
  ⟨(List.reverse_perm backupExecs).symm,
    (C18_status_depends_on_counts backupExecs backupExecs.reverse).1
      (List.reverse_perm backupExecs).symm,
    rfl,
    ((C18_status_depends_on_counts backupExecs backupExecs.reverse).2.2
      (backupExecs.take 1) (backupExecs.drop 1) rfl).1⟩

/-! ## Text truncator: idempotence -/

theorem seqLen_cases (b0 : Nat) :
    seqLen b0 = 0 ∨ seqLen b0 = 1 ∨ seqLen b0 = 2 ∨ seqLen b0 = 3 ∨ seqLen b0 = 4 := by
  unfold seqLen
  split_ifs <;> simp

theorem runeWidth_take (l : List Nat) (k : Nat) (h : runeWidth l ≤ k) :
    runeWidth (l.take k) = runeWidth l := by
  rcases l with _ | ⟨b0, rest⟩
  · simp
  · rcases seqLen_cases b0 with hs | hs | hs | hs | hs
    · rcases k with _ | k
      · simp [runeWidth, hs] at h
      · simp [runeWidth, hs]
    · rcases k with _ | k
      · simp [runeWidth, hs] at h
      · simp [runeWidth, hs]
    · rcases rest with _ | ⟨b1, rest⟩ <;> rcases k with _ | _ | k <;>
        simp [runeWidth, hs] at h ⊢ <;> split_ifs at h ⊢ <;> simp_all
    · rcases rest with _ | ⟨b1, _ | ⟨b2, rest⟩⟩ <;> rcases k with _ | _ | _ | k <;>
        simp [runeWidth, hs] at h ⊢ <;> split_ifs at h ⊢ <;> simp_all
    · rcases rest with _ | ⟨b1, _ | ⟨b2, _ | ⟨b3, rest⟩⟩⟩ <;> rcases k with _ | _ | _ | _ | k <;>
        simp [runeWidth, hs] at h ⊢ <;> split_ifs at h ⊢ <;> simp_all

theorem runeWidth_drop_bounds (s : List Nat) (index : Nat) (h : index < s.length) :
    1 ≤ runeWidth (s.drop index) ∧ index + runeWidth (s.drop index) ≤ s.length := by
  cases hd : s.drop index with
  | nil =>
    have := congrArg List.length hd
    simp at this
    omega
  | cons b0 rest =>
    have hb := runeWidth_bounds b0 rest
    have hl : (b0 :: rest).length = s.length - index := by
      rw [← hd, List.length_drop]
    omega

theorem truncateLoop_mono (s : List Nat) (d : Nat) :
    ∀ (fuel index n : Nat) (r : List Nat), truncateLoop s fuel index n = some r →
      truncateLoop s (fuel + d) index n = some r := by
  intro fuel
  induction fuel with
  | zero =>
    intro index n r h
    simp [truncateLoop] at h
  | succ fuel ih =>
    intro index n r h
    rw [show fuel + 1 + d = (fuel + d) + 1 by omega]
    rw [truncateLoop] at h ⊢
    by_cases hlt : index < s.length
    · simp only [hlt, if_true] at h ⊢
      by_cases h25 : n + 1 > 25
      · simp only [h25, if_true] at h ⊢
        exact h
      · simp only [h25, if_false] at h ⊢
        exact ih _ _ r h
    · simp only [hlt, if_false] at h ⊢
      exact h

theorem le_runeCountLoop (s : List Nat) :
    ∀ (fuel index c : Nat), c ≤ runeCountLoop s fuel index c := by
  intro fuel
  induction fuel with
  | zero =>
    intro index c
    simp [runeCountLoop]
  | succ fuel ih =>
    intro index c
    rw [runeCountLoop]
    by_cases hlt : index < s.length
    · simp only [hlt, if_true]
      have := ih (index + runeWidth (s.drop index)) (c + 1)
      omega
    · simp [hlt]

theorem runeCountLoop_mono (s : List Nat) (d : Nat) :
    ∀ (fuel index c : Nat), runeCountLoop s fuel index c ≤ runeCountLoop s (fuel + d) index c := by
  intro fuel
  induction fuel with
  | zero =>
    intro index c
    simpa [runeCountLoop] using le_runeCountLoop s d index c
  | succ fuel ih =>
    intro index c
    rw [show fuel + 1 + d = (fuel + d) + 1 by omega]
    rw [runeCountLoop, runeCountLoop]
    by_cases hlt : index < s.length
    · simp only [hlt, if_true]
      exact ih _ _
    · simp [hlt]

theorem truncateLoop_fixed (s out : List Nat) :
    ∀ (fuel index n : Nat), index ≤ s.length → n ≤ 25 →
      truncateLoop s fuel index n = some out →
      index ≤ out.length ∧ out = s.take out.length ∧
        truncateLoop out fuel index n = some out ∧ runeCountLoop out fuel index n ≤ 25 := by
  intro fuel
  induction fuel with
  | zero =>
    intro index n _ _ h
    simp [truncateLoop] at h
  | succ fuel ih =>
    intro index n hidx hn h
    rw [truncateLoop] at h
    by_cases hlt : index < s.length
    · simp only [hlt, if_true] at h
      by_cases h25 : n + 1 > 25
      · simp only [h25, if_true] at h
        rw [sliceTo_eq _ _ hidx] at h
        have hout : out = s.take index := (Option.some.inj h).symm
        have hlen : out.length = index := by
          rw [hout, List.length_take]
          omega
        refine ⟨by omega, by rw [hlen]; exact hout, ?_, ?_⟩
        · rw [truncateLoop]
          simp [hlen]
        · rw [runeCountLoop]
          simp [hlen, hn]
      · simp only [h25, if_false] at h
        have hw := runeWidth_drop_bounds s index hlt
        obtain ⟨h1, h2, h3, h4⟩ :=
          ih (index + runeWidth (s.drop index)) (n + 1) hw.2 (by omega) h
        have hdrop : out.drop index = (s.drop index).take (out.length - index) := by
          conv_lhs => rw [h2]
          rw [List.drop_take]
        have hwidth : runeWidth (out.drop index) = runeWidth (s.drop index) := by
          rw [hdrop]
          exact runeWidth_take _ _ (by omega)
        have hlt2 : index < out.length := by omega
        refine ⟨by omega, h2, ?_, ?_⟩
        · rw [truncateLoop]
          simp only [hlt2, if_true, h25, if_false, hwidth]
          exact h3
        · rw [runeCountLoop]
          simp only [hlt2, if_true, hwidth]
          exact h4
    · simp only [hlt, if_false] at h
      have hout : out = s := (Option.some.inj h).symm
      subst hout
      refine ⟨hidx, by simp, ?_, ?_⟩
      · rw [truncateLoop]
        simp [hlt]
      · rw [runeCountLoop]
        simp [hlt, hn]

theorem truncate_fixed (s out : List Nat) (h : truncate s = some out) :
    truncate out = some out ∧ runeCount out ≤ 25 ∧ out = s.take out.length := by
  obtain ⟨_, hpre, hfix, hcount⟩ :=
    truncateLoop_fixed s out (s.length + 1) 0 0 (by omega) (by omega) h
  have hlen : out.length ≤ s.length := by
    have := congrArg List.length hpre
    rw [List.length_take] at this
    omega
  have hfuel : s.length + 1 = (out.length + 1) + (s.length - out.length) := by omega
  refine ⟨?_, ?_, hpre⟩
  · cases hr : truncate out with
    | none =>
      have := truncate_isSome out
      simp [hr] at this
    | some r =>
      have hm := truncateLoop_mono out (s.length - out.length) (out.length + 1) 0 0 r hr
      rw [← hfuel, hfix] at hm
      rw [Option.some.inj hm]
  · have hm := runeCountLoop_mono out (s.length - out.length) (out.length + 1) 0 0
    rw [← hfuel] at hm
    exact le_trans hm hcount

theorem runeCountLoop_utf8 (cs : List Char) :
    ∀ (pre : List Char) (c fuel : Nat), cs.length + 1 ≤ fuel →
      runeCountLoop (utf8Encode pre ++ utf8Encode cs) fuel (utf8Encode pre).length c
        = c + cs.length := by
  induction cs with
  | nil =>
    intro pre c fuel hfuel
    obtain ⟨fuel, rfl⟩ : ∃ f, fuel = f + 1 := ⟨fuel - 1, by simp at hfuel; omega⟩
    simp [runeCountLoop, utf8Encode_nil]
  | cons ch cs ih =>
    intro pre c fuel hfuel
    obtain ⟨fuel, rfl⟩ : ∃ f, fuel = f + 1 := ⟨fuel - 1, by simp at hfuel; omega⟩
    have hpos := encodeRune_length_pos ch.toNat
    have hlt : (utf8Encode pre).length < (utf8Encode pre ++ utf8Encode (ch :: cs)).length := by
      rw [List.length_append, utf8Encode_cons, List.length_append]
      omega
    rw [runeCountLoop]
    simp only [hlt, if_true]
    have hdrop : List.drop (utf8Encode pre).length (utf8Encode pre ++ utf8Encode (ch :: cs))
        = encodeRune ch.toNat ++ utf8Encode cs := by
      rw [List.drop_left, utf8Encode_cons]
    rw [hdrop, runeWidth_encodeRune]
    have hs : utf8Encode pre ++ utf8Encode (ch :: cs)
        = utf8Encode (pre ++ [ch]) ++ utf8Encode cs := by
      rw [utf8Encode_append, utf8Encode_cons, utf8Encode_cons, utf8Encode_nil]
      simp
    have hi : (utf8Encode pre).length + (encodeRune ch.toNat).length
        = (utf8Encode (pre ++ [ch])).length := by
      rw [utf8Encode_append, utf8Encode_cons, utf8Encode_nil]
      simp
    rw [hs, hi, ih (pre ++ [ch]) (c + 1) fuel (by simp at hfuel ⊢; omega)]
    simp only [List.length_cons]
    omega

theorem runeCount_utf8 (cs : List Char) : runeCount (utf8Encode cs) = cs.length := by
  have h := runeCountLoop_utf8 cs [] 0 ((utf8Encode cs).length + 1)
    (by have := length_le_utf8Encode cs; omega)
  simpa [runeCount, utf8Encode_nil] using h

/-- C17: `truncate` returns a result on every string, also one that is not valid
UTF-8; truncating that result again leaves it unchanged, and the result has at
most 25 characters as `range` counts them (for a valid UTF-8 string this count
is the number of encoded characters). -/
theorem C17_truncate_idempotent (s : List Nat) :
    (∃ out : List Nat, truncate s = some out ∧ truncate out = some out ∧
      runeCount out ≤ 25 ∧ List.IsPrefix out s) ∧
    ((truncate s).bind truncate = truncate s) ∧
    (∀ cs : List Char, runeCount (utf8Encode cs) = cs.length) := by
  cases hr : truncate s with
  | none =>
    have := truncate_isSome s
    simp [hr] at this
  | some out =>
    obtain ⟨hfix, hcount, hpre⟩ := truncate_fixed s out hr
    refine ⟨⟨out, rfl, hfix, hcount, ?_⟩, by simpa using hfix, runeCount_utf8⟩
    rw [hpre]
    exact List.take_prefix _ _

end Dkron
